import Mathlib

/-!
Shallow embedding of the Cobalt command-line framework (src/cobalt.hpp)
and proofs about its argument splitting, flag registries, flag-inheritance
merges, suggestion computation and dispatch.

C++ strings are modelled as Lean `String` viewed through its `data`
character list; C++ container mutation is modelled by explicit state
passing.  Flag setters close over externally owned storage; the storage
type is a parameter `σ` and a setter has type `String → σ → Except Unit σ`
(`Except.error` models a thrown conversion exception such as the one from
`std::stoi`).
-/

namespace Cobalt

/-- Character access `s[i]` on a `std::string`.  For `i = s.size()` the C++
`operator[]` returns the null character; larger indices are undefined in
C++ and never reached by the functions below on the inputs they receive
from `StripFlags`. -/
def charAt (s : String) (i : Nat) : Char :=
  s.data.getD i (Char.ofNat 0)

/-- Model of `s.substr(n)`: the suffix of `s` from character position `n`. -/
def dropChars (s : String) (n : Nat) : String :=
  ⟨s.data.drop n⟩

/-- Model of `s.substr(0, n)`: the first `n` characters of `s` (clamped, as in C++). -/
def takeChars (s : String) (n : Nat) : String :=
  ⟨s.data.take n⟩

/-- The whitespace test used by `Ltrim`/`Rtrim` in the source
(space, newline, carriage return, tab). -/
def isWsChar (c : Char) : Bool :=
  c == ' ' || c == '\n' || c == '\r' || c == '\t'

/-- Model of `Ltrim`: repeatedly remove a leading whitespace character. -/
def Ltrim (s : String) : String :=
  ⟨s.data.dropWhile isWsChar⟩

/-- Model of `Rtrim`: repeatedly remove a trailing whitespace character. -/
def Rtrim (s : String) : String :=
  ⟨(s.data.reverse.dropWhile isWsChar).reverse⟩

/-- Model of `Trim`: `Rtrim` after `Ltrim`. -/
def Trim (s : String) : String :=
  Rtrim (Ltrim s)

/-- Model of `ToLowerCase`: `std::tolower` applied to every character
(ASCII lowering, as in the C locale). -/
def ToLowerCase (s : String) : String :=
  ⟨s.data.map Char.toLower⟩

/-- Model of `std::lexicographical_compare` on the characters of two strings,
also the order of `std::less<std::string>` used by `std::map`. -/
def charListLt : List Char → List Char → Bool
  | _, [] => false
  | [], _ :: _ => true
  | a :: as, b :: bs =>
    if a < b then true
    else if b < a then false
    else charListLt as bs

/-- The `std::map` key order on strings. -/
def strLt (a b : String) : Bool :=
  charListLt a.data b.data

/-- The flag map of `StripFlags` is a `std::map<std::string, std::string>`:
an association list kept sorted by `strLt` on the keys.
`std::map::insert` does not overwrite: when the key is already present the
map is returned unchanged. -/
def mapInsert (m : List (String × String)) (k v : String) : List (String × String) :=
  match m with
  | [] => [(k, v)]
  | (k1, v1) :: rest =>
    if strLt k k1 then (k, v) :: (k1, v1) :: rest
    else if k == k1 then (k1, v1) :: rest
    else (k1, v1) :: mapInsert rest k v

/-- Model of `std::map` lookup on the modelled flag map: the value of the (at most
one) entry with key `k`. -/
def lookupMap : List (String × String) → String → Option String
  | [], _ => none
  | p :: rest, k => if p.1 == k then some p.2 else lookupMap rest k

/-- One iteration of the `StripFlags` loop body on a token: a token whose
trimmed form contains a dash anywhere is a flag; its key is the text before
the first `=` (the whole token when there is no `=`) and its value is the
text after the first `=` (`"true"` when there is no `=`).  Non-flag tokens
yield `none`. -/
def classify (a : String) : Option (String × String) :=
  let arg := Trim a
  if arg.data.any (fun c => c == '-') then
    let key : String := ⟨arg.data.takeWhile (fun c => c != '=')⟩
    let val : String :=
      if key.data.length == arg.data.length then "true"
      else ⟨arg.data.drop (key.data.length + 1)⟩
    some (key, val)
  else none

/-- The `StripFlags` scan: flag tokens are removed from the positional list
(`erase` plus the index decrement in the source) and inserted into the flag
map in encounter order; positional tokens are kept in order. -/
def stripFlagsGo (args : List String) (m : List (String × String)) :
    List String × List (String × String) :=
  match args with
  | [] => ([], m)
  | a :: rest =>
    match classify a with
    | some kv => stripFlagsGo rest (mapInsert m kv.1 kv.2)
    | none =>
      let r := stripFlagsGo rest m
      (a :: r.1, r.2)

/-- Model of `StripFlags`: split a token list into positional arguments and the flag
map. -/
def StripFlags (args : List String) : List String × List (String × String) :=
  stripFlagsGo args []

/-- The first flag-classified token carrying key `k` determines the value
the flag map associates with `k` (the amended description of the repeated
key behaviour: `std::map::insert` keeps the existing entry). -/
def firstFlagValue (args : List String) (k : String) : Option String :=
  match args with
  | [] => none
  | a :: rest =>
    match classify a with
    | some kv => if kv.1 == k then some kv.2 else firstFlagValue rest k
    | none => firstFlagValue rest k

/-! Order lemmas for the `std::map` key comparison. -/

lemma wsChar_ne_dash {c : Char} (h : isWsChar c = true) : (c == '-') = false := by
  cases hcc : (c == '-') with
  | false => rfl
  | true =>
    have hc : c = '-' := eq_of_beq hcc
    subst hc
    exact absurd h (by decide)

lemma any_dash_dropWhile (l : List Char) :
    ((l.dropWhile isWsChar).any (fun c => c == '-')) = l.any (fun c => c == '-') := by
  induction l with
  | nil => rfl
  | cons a as ih =>
    cases ha : isWsChar a with
    | true => simp [List.dropWhile_cons, ha, wsChar_ne_dash ha, ih]
    | false => simp [List.dropWhile_cons, ha]

lemma trim_any_dash (s : String) :
    (Trim s).data.any (fun c => c == '-') = s.data.any (fun c => c == '-') := by
  show ((s.data.dropWhile isWsChar).reverse.dropWhile isWsChar).reverse.any
      (fun c => c == '-') = s.data.any (fun c => c == '-')
  rw [List.any_reverse, any_dash_dropWhile, List.any_reverse, any_dash_dropWhile]

lemma classify_isSome (a : String) :
    (classify a).isSome = a.data.any (fun c => c == '-') := by
  rw [← trim_any_dash]
  unfold classify
  cases h : (Trim a).data.any (fun c => c == '-') with
  | true => simp [h]
  | false => simp [h]

lemma charListLt_irrefl : ∀ l : List Char, charListLt l l = false
  | [] => rfl
  | a :: as => by
    have ih := charListLt_irrefl as
    simp [charListLt, lt_irrefl, ih]

lemma charListLt_trans : ∀ (l1 l2 l3 : List Char),
    charListLt l1 l2 = true → charListLt l2 l3 = true → charListLt l1 l3 = true
  | _, [], _, h1, _ => by simp [charListLt] at h1
  | _, _ :: _, [], _, h2 => by simp [charListLt] at h2
  | [], _ :: _, _ :: _, _, _ => rfl
  | a :: as, b :: bs, c :: cs, h1, h2 => by
    by_cases hab : a < b
    · by_cases hbc : b < c
      · simp [charListLt, lt_trans hab hbc]
      · by_cases hcb : c < b
        · simp [charListLt, hbc, hcb] at h2
        · have hbceq : b = c := le_antisymm (not_lt.mp hcb) (not_lt.mp hbc)
          subst hbceq
          simp [charListLt, hab]
    · by_cases hba : b < a
      · simp [charListLt, hab, hba] at h1
      · have haeq : a = b := le_antisymm (not_lt.mp hba) (not_lt.mp hab)
        subst haeq
        simp [charListLt, lt_irrefl] at h1
        by_cases hac : a < c
        · simp [charListLt, hac]
        · by_cases hca : c < a
          · simp [charListLt, hac, hca, lt_irrefl] at h2
          · have haceq : a = c := le_antisymm (not_lt.mp hca) (not_lt.mp hac)
            subst haceq
            simp [charListLt, lt_irrefl] at h2 ⊢
            exact charListLt_trans as bs cs h1 h2

lemma charListLt_asymm_eq : ∀ (l1 l2 : List Char),
    charListLt l1 l2 = false → charListLt l2 l1 = false → l1 = l2
  | [], [], _, _ => rfl
  | [], _ :: _, h1, _ => by simp [charListLt] at h1
  | _ :: _, [], _, h2 => by simp [charListLt] at h2
  | a :: as, b :: bs, h1, h2 => by
    by_cases hab : a < b
    · simp [charListLt, hab] at h1
    · by_cases hba : b < a
      · simp [charListLt, hba] at h2
      · have haeq : a = b := le_antisymm (not_lt.mp hba) (not_lt.mp hab)
        subst haeq
        simp [charListLt, lt_irrefl] at h1 h2
        rw [charListLt_asymm_eq as bs h1 h2]

lemma strLt_irrefl (a : String) : strLt a a = false :=
  charListLt_irrefl a.data

lemma strLt_trans {a b c : String} (h1 : strLt a b = true) (h2 : strLt b c = true) :
    strLt a c = true :=
  charListLt_trans a.data b.data c.data h1 h2

lemma strLt_total {a b : String} (h1 : strLt a b = false) (h2 : a ≠ b) :
    strLt b a = true := by
  cases hba : strLt b a with
  | true => rfl
  | false =>
    have hd : a.data = b.data := charListLt_asymm_eq a.data b.data h1 hba
    cases a with
    | mk da =>
      cases b with
      | mk db => exact absurd (congrArg String.mk hd) h2

/-! The sortedness invariant of the modelled `std::map` and the behaviour
of `mapInsert` under it. -/

def KeysOrdered (m : List (String × String)) : Prop :=
  m.Pairwise (fun p q => strLt p.1 q.1 = true)

lemma mem_mapInsert : ∀ (m : List (String × String)) (k v : String) (q : String × String),
    q ∈ mapInsert m k v → q ∈ m ∨ q = (k, v)
  | [], k, v, q, h => by
    simp [mapInsert] at h
    exact Or.inr h
  | (k1, v1) :: rest, k, v, q, h => by
    cases h1 : strLt k k1 with
    | true =>
      simp only [mapInsert, h1, if_true] at h
      rcases List.mem_cons.mp h with h | h
      · exact Or.inr h
      · exact Or.inl h
    | false =>
      cases h2 : (k == k1) with
      | true =>
        simp only [mapInsert, h1, h2, Bool.false_eq_true, if_false, if_true] at h
        exact Or.inl h
      | false =>
        simp only [mapInsert, h1, h2, Bool.false_eq_true, if_false] at h
        rcases List.mem_cons.mp h with h | h
        · exact Or.inl (List.mem_cons.mpr (Or.inl h))
        · rcases mem_mapInsert rest k v q h with h3 | h3
          · exact Or.inl (List.mem_cons_of_mem _ h3)
          · exact Or.inr h3

lemma keysOrdered_mapInsert : ∀ (m : List (String × String)) (k v : String),
    KeysOrdered m → KeysOrdered (mapInsert m k v)
  | [], k, v, _ => by simp [mapInsert, KeysOrdered]
  | (k1, v1) :: rest, k, v, hm => by
    rw [KeysOrdered, List.pairwise_cons] at hm
    obtain ⟨hall, hrest⟩ := hm
    cases h1 : strLt k k1 with
    | true =>
      rw [KeysOrdered]
      simp only [mapInsert, h1, if_true]
      rw [List.pairwise_cons]
      constructor
      · intro q hq
        rcases List.mem_cons.mp hq with h | h
        · rw [h]; exact h1
        · exact strLt_trans h1 (hall q h)
      · rw [List.pairwise_cons]
        exact ⟨hall, hrest⟩
    | false =>
      cases h2 : (k == k1) with
      | true =>
        rw [KeysOrdered]
        simp only [mapInsert, h1, h2, Bool.false_eq_true, if_false, if_true]
        rw [List.pairwise_cons]
        exact ⟨hall, hrest⟩
      | false =>
        have hne : k ≠ k1 := by
          intro he
          rw [he, beq_self_eq_true] at h2
          exact absurd h2 (by decide)
        have h3 : strLt k1 k = true := strLt_total h1 hne
        rw [KeysOrdered]
        simp only [mapInsert, h1, h2, Bool.false_eq_true, if_false]
        rw [List.pairwise_cons]
        constructor
        · intro q hq
          rcases mem_mapInsert rest k v q hq with h | h
          · exact hall q h
          · rw [h]; exact h3
        · exact keysOrdered_mapInsert rest k v hrest

lemma lookupMap_all_gt : ∀ (m : List (String × String)) (k : String),
    (∀ q ∈ m, strLt k q.1 = true) → lookupMap m k = none
  | [], _, _ => rfl
  | p :: rest, k, h => by
    have hp := h p (List.mem_cons_self p rest)
    have hne : (p.1 == k) = false := by
      cases hb : (p.1 == k) with
      | false => rfl
      | true =>
        have he : p.1 = k := eq_of_beq hb
        rw [he, strLt_irrefl] at hp
        exact absurd hp (by decide)
    simp only [lookupMap, hne, Bool.false_eq_true, if_false]
    exact lookupMap_all_gt rest k (fun q hq => h q (List.mem_cons_of_mem p hq))

lemma lookupMap_mapInsert : ∀ (m : List (String × String)), KeysOrdered m →
    ∀ (k v k2 : String),
    lookupMap (mapInsert m k v) k2 =
      if k2 = k then some ((lookupMap m k).getD v) else lookupMap m k2
  | [], _, k, v, k2 => by
    by_cases h2 : k2 = k
    · subst h2
      simp [mapInsert, lookupMap]
    · simp [mapInsert, lookupMap, beq_iff_eq, Ne.symm h2, h2]
  | (k1, v1) :: rest, hm, k, v, k2 => by
    rw [KeysOrdered, List.pairwise_cons] at hm
    obtain ⟨hall, hrest⟩ := hm
    cases hlt : strLt k k1 with
    | true =>
      have hnone : lookupMap ((k1, v1) :: rest) k = none := by
        apply lookupMap_all_gt
        intro q hq
        rcases List.mem_cons.mp hq with h | h
        · rw [h]; exact hlt
        · exact strLt_trans hlt (hall q h)
      by_cases h2 : k2 = k
      · subst h2
        rw [if_pos rfl, hnone]
        simp [mapInsert, hlt, lookupMap]
      · simp [mapInsert, hlt, lookupMap, beq_iff_eq, h2, Ne.symm h2]
    | false =>
      cases heq : (k == k1) with
      | true =>
        have he : k = k1 := eq_of_beq heq
        subst he
        by_cases h2 : k2 = k
        · subst h2
          simp only [mapInsert, hlt, Bool.false_eq_true, if_false, beq_self_eq_true,
            if_true, lookupMap, Option.getD_some, if_pos rfl]
        · simp [mapInsert, hlt, lookupMap, h2]
      | false =>
        have hne : k ≠ k1 := by
          intro he
          rw [he, beq_self_eq_true] at heq
          exact absurd heq (by decide)
        have hgt : strLt k1 k = true := strLt_total hlt hne
        by_cases h2 : k2 = k
        · subst h2
          have hh : (k1 == k2) = false := by
            cases hb : (k1 == k2) with
            | false => rfl
            | true =>
              have he : k1 = k2 := eq_of_beq hb
              rw [he, strLt_irrefl] at hgt
              exact absurd hgt (by decide)
          simp only [mapInsert, hlt, Bool.false_eq_true, if_false, heq, lookupMap, hh]
          rw [lookupMap_mapInsert rest hrest k2 v k2]
          simp
        · cases hh : (k1 == k2) with
          | true =>
            simp only [mapInsert, hlt, Bool.false_eq_true, if_false, heq, lookupMap, hh,
              if_true]
            simp [h2]
          | false =>
            simp only [mapInsert, hlt, Bool.false_eq_true, if_false, heq, lookupMap, hh]
            rw [lookupMap_mapInsert rest hrest k v k2]
            simp [h2]

lemma keysOrdered_stripFlagsGo : ∀ (args : List String) (m : List (String × String)),
    KeysOrdered m → KeysOrdered (stripFlagsGo args m).2
  | [], _, hm => hm
  | a :: rest, m, hm => by
    cases hc : classify a with
    | some kv =>
      simp only [stripFlagsGo, hc]
      exact keysOrdered_stripFlagsGo rest _ (keysOrdered_mapInsert m kv.1 kv.2 hm)
    | none =>
      simp only [stripFlagsGo, hc]
      exact keysOrdered_stripFlagsGo rest m hm

lemma lookupMap_stripFlagsGo : ∀ (args : List String) (m : List (String × String)),
    KeysOrdered m → ∀ k,
    lookupMap (stripFlagsGo args m).2 k =
      match lookupMap m k with
      | some w => some w
      | none => firstFlagValue args k
  | [], m, _, k => by
    cases h : lookupMap m k <;> simp [stripFlagsGo, firstFlagValue, h]
  | a :: rest, m, hm, k => by
    cases hc : classify a with
    | none =>
      simp only [stripFlagsGo, hc, firstFlagValue]
      exact lookupMap_stripFlagsGo rest m hm k
    | some kv =>
      simp only [stripFlagsGo, hc, firstFlagValue]
      rw [lookupMap_stripFlagsGo rest _ (keysOrdered_mapInsert m kv.1 kv.2 hm) k]
      rw [lookupMap_mapInsert m hm kv.1 kv.2 k]
      by_cases h2 : k = kv.1
      · subst h2
        simp only [if_pos rfl, beq_self_eq_true, if_true]
        cases h : lookupMap m kv.1 <;> simp [h]
      · have hb : (kv.1 == k) = false := by
          cases hb2 : (kv.1 == k) with
          | false => rfl
          | true => exact absurd (eq_of_beq hb2).symm h2
        simp [h2, hb]

lemma stripFlagsGo_fst : ∀ (args : List String) (m : List (String × String)),
    (stripFlagsGo args m).1 = args.filter (fun t => !(t.data.any (fun c => c == '-')))
  | [], _ => rfl
  | a :: rest, m => by
    cases hc : classify a with
    | some kv =>
      have hdash : a.data.any (fun c => c == '-') = true := by
        rw [← classify_isSome a, hc]
        rfl
      simp only [stripFlagsGo, hc, List.filter_cons, hdash]
      simp only [Bool.not_true, Bool.false_eq_true, if_false]
      exact stripFlagsGo_fst rest (mapInsert m kv.1 kv.2)
    | none =>
      have hdash : a.data.any (fun c => c == '-') = false := by
        rw [← classify_isSome a, hc]
        rfl
      simp only [stripFlagsGo, hc, List.filter_cons, hdash]
      simp only [Bool.not_false, if_true]
      rw [stripFlagsGo_fst rest m]

/-- Claim C8: `StripFlags` partitions the token list so that the
positional output equals, in order, the subsequence of input tokens that
are not flag-classified (a token is flag-classified when it contains a
dash character anywhere), and hence no flag-classified token appears in
the positional output. -/
theorem StripFlags_splits_positionals (args : List String) :
    (StripFlags args).1 = args.filter (fun t => !(t.data.any (fun c => c == '-')))
    ∧ ∀ t ∈ (StripFlags args).1, t.data.any (fun c => c == '-') = false := by
  refine ⟨stripFlagsGo_fst args [], ?_⟩
  intro t ht
  simp only [StripFlags] at ht
  rw [stripFlagsGo_fst args []] at ht
  have := List.of_mem_filter ht
  simpa using this

/-- Witness for C8 at a concrete input: `"app"` is a positional token of
`["app", "-v", "app"]` and carries no dash. -/
theorem StripFlags_splits_positionals_witness :
    "app".data.any (fun c => c == '-') = false :=
  (StripFlags_splits_positionals ["app", "-v", "app"]).2 "app" (by decide)

/-- Claim C4 counterexample: with the same key `--x` occurring twice, the
flag map keeps the value `"1"` of the first occurrence, not the value
`"2"` of the last occurrence (`std::map::insert` does not overwrite). -/
theorem StripFlags_repeated_key_cex :
    (StripFlags ["--x=1", "--x=2"]).2 = [("--x", "1")]
    ∧ lookupMap (StripFlags ["--x=1", "--x=2"]).2 "--x" ≠ some "2" := by
  constructor
  · decide
  · decide

/-- Claim C4 (amended): for every token sequence, the flag map produced by
`StripFlags` associates each key with the value of the FIRST
flag-classified token carrying that key (first-write-wins), because
`std::map::insert` keeps an existing entry. -/
theorem StripFlags_first_write_wins (args : List String) (k : String) :
    lookupMap (StripFlags args).2 k = firstFlagValue args k := by
  have h := lookupMap_stripFlagsGo args [] (by simp [KeysOrdered]) k
  simpa [StripFlags, lookupMap] using h

/-! ## Flag registries -/

/-- The type tags of `detail::Types`. -/
inductive Types where
  | BOOL
  | INT
  | FLOAT
  | CHAR
  | STRING
  | UNDETERMINED
deriving DecidableEq

/-- Model of `detail::Flag`: a flag descriptor.  The setter closes over externally
owned storage of type `σ`; `Except.error` models a thrown conversion
exception (for instance from `std::stoi`). -/
structure Flag (σ : Type) where
  type : Types
  short : String
  long : String
  description : String
  setter : String → σ → Except Unit σ

/-- Model of `Flags::Lookup`: `std::find_if` over the registry by long name, so the
first matching descriptor wins. -/
def Lookup {σ : Type} (fs : List (Flag σ)) (name : String) : Option (Flag σ) :=
  fs.find? (fun f => f.long == name)

/-- The duplicate-avoiding merge loop shared by `InheritedFlags`,
`MergePersistentFlags` and `FullFlags`: each flag of `src`, in order, is
appended to `target` unless an entry with the same long name is already
present. -/
def mergeInto {σ : Type} : List (Flag σ) → List (Flag σ) → List (Flag σ)
  | target, [] => target
  | target, f :: rest =>
    mergeInto (if (Lookup target f.long).isSome then target else target ++ [f]) rest

/-- Model of `Command::MergePersistentFlags` on a node whose own persistent
registry is `self` and whose ancestor persistent registries, nearest
first, are `ancestors`.  The `rmerge` lambda visits the node itself and
then every ancestor; at each visited node the merge runs only when that
registry is nonempty, but the recursion to the parent sits OUTSIDE that
check and is unconditional.  Visiting the node itself never adds anything
(every long name is already present), so folding from the original
registry models the in-place mutation exactly. -/
def MergePersistentFlags {σ : Type} (self : List (Flag σ))
    (ancestors : List (List (Flag σ))) : List (Flag σ) :=
  (self :: ancestors).foldl
    (fun t reg => if 0 < reg.length then mergeInto t reg else t) self

/-- The `rmerge` walk of `Command::InheritedFlags`: here BOTH the merge
and the recursion to the parent are inside the nonemptiness check, so an
ancestor with an empty persistent registry stops the whole walk. -/
def inheritedGo {σ : Type} (result : List (Flag σ)) :
    List (List (Flag σ)) → List (Flag σ)
  | [] => result
  | reg :: rest =>
    if 0 < reg.length then inheritedGo (mergeInto result reg) rest else result

/-- Model of `Command::InheritedFlags`: the gated walk started at the parent (the
node itself is excluded); `ancestors` lists the ancestor persistent
registries nearest first. -/
def InheritedFlags {σ : Type} (ancestors : List (List (Flag σ))) : List (Flag σ) :=
  inheritedGo [] ancestors

/-- The errors `Flags::Parse` can let escape: the explicit `UnknownFlag`
exception, or an exception thrown by a conversion inside a setter. -/
inductive ParseErr where
  | unknownFlag (name : String)
  | setterFail
deriving DecidableEq

/-- Model of `Flags::Parse` over the (key-ordered) flag map.  The key of each entry is
resolved by long name when the character at index 1 of the stored key text
is a dash (`pair.first[1] == '-'`), and by short name otherwise; the
resolved name strips two respectively one leading characters.  A missing
descriptor raises `UnknownFlag`; a throwing setter propagates; state
changes made by setters of earlier entries persist. -/
def Parse {σ : Type} (fs : List (Flag σ)) :
    List (String × String) → σ → σ × Option ParseErr
  | [], st => (st, none)
  | (k, v) :: rest, st =>
    let name := if charAt k 1 == '-' then dropChars k 2 else dropChars k 1
    let fl := if charAt k 1 == '-' then fs.find? (fun f => f.long == name)
              else fs.find? (fun f => f.short == name)
    match fl with
    | none => (st, some (ParseErr.unknownFlag name))
    | some f =>
      match f.setter v st with
      | Except.error _ => (st, some ParseErr.setterFail)
      | Except.ok st2 => Parse fs rest st2

/-- Digit accumulation of `std::stoi`, which stops at the first non-digit
(trailing text is ignored, not an error). -/
def stoiDigits : List Char → Nat → Nat
  | [], acc => acc
  | c :: rest, acc =>
    if c.isDigit then stoiDigits rest (acc * 10 + (c.toNat - 48)) else acc

/-- Model of `std::stoi`: skip leading whitespace, accept an optional
sign, then require at least one digit; `Except.error` models the
`std::invalid_argument` throw when no digit follows. -/
def stoi (s : String) : Except Unit Int :=
  match s.data.dropWhile isWsChar with
  | '-' :: rest =>
    match rest with
    | c :: _ =>
      if c.isDigit then
        Except.ok (-(Int.ofNat (stoiDigits (rest.takeWhile Char.isDigit) 0)))
      else Except.error ()
    | [] => Except.error ()
  | '+' :: rest =>
    match rest with
    | c :: _ =>
      if c.isDigit then
        Except.ok (Int.ofNat (stoiDigits (rest.takeWhile Char.isDigit) 0))
      else Except.error ()
    | [] => Except.error ()
  | c :: rest =>
    if c.isDigit then
      Except.ok (Int.ofNat (stoiDigits ((c :: rest).takeWhile Char.isDigit) 0))
    else Except.error ()
  | [] => Except.error ()

/-- Model of `Flags::Add<int>(Reference, Long, Short, Default, Description)`:
registers a descriptor whose setter converts the string with `std::stoi`
into the bound storage, then assigns the default value directly to the
storage (`Reference = Default`).  The result pairs the extended registry
with the new storage value. -/
def AddIntFlag (fs : List (Flag Int)) (long short : String) (dflt : Int)
    (desc : String) : List (Flag Int) × Int :=
  (fs ++ [{ type := Types.INT, long := long, short := short, description := desc,
            setter := fun v _ => stoi v }], dflt)

/-! Lemmas about the merge loop. -/

lemma Lookup_isSome_iff {σ : Type} (fs : List (Flag σ)) (n : String) :
    (Lookup fs n).isSome = true ↔ n ∈ fs.map Flag.long := by
  rw [Lookup, List.find?_isSome]
  constructor
  · rintro ⟨f, hf, hb⟩
    exact List.mem_map.mpr ⟨f, hf, eq_of_beq hb⟩
  · intro h
    rcases List.mem_map.mp h with ⟨f, hf, he⟩
    exact ⟨f, hf, by simp [he]⟩

lemma mergeInto_mono {σ : Type} : ∀ (src target : List (Flag σ)) (a : String),
    a ∈ target.map Flag.long → a ∈ (mergeInto target src).map Flag.long
  | [], _, _, h => h
  | f :: rest, target, a, h => by
    simp only [mergeInto]
    cases hl : (Lookup target f.long).isSome with
    | true =>
      simp only [hl, if_true]
      exact mergeInto_mono rest target a h
    | false =>
      simp only [hl, Bool.false_eq_true, if_false]
      exact mergeInto_mono rest (target ++ [f]) a
        (by simp only [List.map_append, List.mem_append]; exact Or.inl h)

lemma mergeInto_src {σ : Type} : ∀ (src target : List (Flag σ)) (f : Flag σ),
    f ∈ src → f.long ∈ (mergeInto target src).map Flag.long
  | [], _, f, h => absurd h (List.not_mem_nil f)
  | g :: rest, target, f, h => by
    simp only [mergeInto]
    rcases List.mem_cons.mp h with he | hmem
    · subst he
      cases hl : (Lookup target f.long).isSome with
      | true =>
        simp only [hl, if_true]
        exact mergeInto_mono rest target f.long ((Lookup_isSome_iff target f.long).mp hl)
      | false =>
        simp only [hl, Bool.false_eq_true, if_false]
        exact mergeInto_mono rest (target ++ [f]) f.long (by simp)
    · cases hl : (Lookup target g.long).isSome with
      | true =>
        simp only [hl, if_true]
        exact mergeInto_src rest target f hmem
      | false =>
        simp only [hl, Bool.false_eq_true, if_false]
        exact mergeInto_src rest (target ++ [g]) f hmem

lemma mergeInto_no_op {σ : Type} : ∀ (src target : List (Flag σ)),
    (∀ f ∈ src, f.long ∈ target.map Flag.long) → mergeInto target src = target
  | [], _, _ => rfl
  | f :: rest, target, h => by
    have hl : (Lookup target f.long).isSome = true :=
      (Lookup_isSome_iff target f.long).mpr (h f (List.mem_cons_self f rest))
    simp only [mergeInto, hl, if_true]
    exact mergeInto_no_op rest target (fun g hg => h g (List.mem_cons_of_mem f hg))

lemma foldl_mergeInto_mono {σ : Type} :
    ∀ (regs : List (List (Flag σ))) (t : List (Flag σ)) (a : String),
    a ∈ t.map Flag.long → a ∈ (regs.foldl mergeInto t).map Flag.long
  | [], _, _, h => h
  | reg :: rest, t, a, h =>
    foldl_mergeInto_mono rest (mergeInto t reg) a (mergeInto_mono reg t a h)

lemma foldl_mergeInto_src {σ : Type} :
    ∀ (regs : List (List (Flag σ))) (t : List (Flag σ)) (reg : List (Flag σ)) (f : Flag σ),
    reg ∈ regs → f ∈ reg → f.long ∈ (regs.foldl mergeInto t).map Flag.long
  | [], _, _, _, h, _ => absurd h (List.not_mem_nil _)
  | r :: rest, t, reg, f, hreg, hf => by
    rcases List.mem_cons.mp hreg with he | hmem
    · subst he
      exact foldl_mergeInto_mono rest (mergeInto t reg) f.long (mergeInto_src reg t f hf)
    · exact foldl_mergeInto_src rest (mergeInto t r) reg f hmem hf

lemma foldl_mergeInto_no_op {σ : Type} :
    ∀ (regs : List (List (Flag σ))) (t : List (Flag σ)),
    (∀ reg ∈ regs, ∀ f ∈ reg, f.long ∈ t.map Flag.long) → regs.foldl mergeInto t = t
  | [], _, _ => rfl
  | reg :: rest, t, h => by
    have h1 : mergeInto t reg = t :=
      mergeInto_no_op reg t (h reg (List.mem_cons_self reg rest))
    simp only [List.foldl_cons, h1]
    exact foldl_mergeInto_no_op rest t (fun r hr => h r (List.mem_cons_of_mem reg hr))

lemma foldl_gate_eq {σ : Type} : ∀ (l : List (List (Flag σ))) (t : List (Flag σ)),
    l.foldl (fun t reg => if 0 < reg.length then mergeInto t reg else t) t
      = l.foldl mergeInto t
  | [], _ => rfl
  | [] :: rest, t => by
    simp only [List.foldl_cons, List.length_nil, lt_irrefl, if_false]
    exact foldl_gate_eq rest t
  | (g :: gs) :: rest, t => by
    simp only [List.foldl_cons, List.length_cons, if_pos (Nat.succ_pos gs.length)]
    exact foldl_gate_eq rest (mergeInto t (g :: gs))

lemma MergePersistentFlags_eq_foldl {σ : Type} (self : List (Flag σ))
    (regs : List (List (Flag σ))) :
    MergePersistentFlags self regs = (self :: regs).foldl mergeInto self :=
  foldl_gate_eq (self :: regs) self

/-- Claim C10: `MergePersistentFlags` is idempotent — running the merge a
second time (as a repeated dispatch through `FullFlags` does) leaves the
persistent registry of the node unchanged, as the exact same descriptor
sequence, because a descriptor is added only when no existing entry
carries its long name. -/
theorem MergePersistentFlags_idempotent {σ : Type} (self : List (Flag σ))
    (regs : List (List (Flag σ))) :
    MergePersistentFlags (MergePersistentFlags self regs) regs =
      MergePersistentFlags self regs := by
  rw [MergePersistentFlags_eq_foldl (MergePersistentFlags self regs) regs,
    MergePersistentFlags_eq_foldl self regs]
  have key : ∀ t : List (Flag σ),
      (∀ reg ∈ self :: regs, ∀ f ∈ reg, f.long ∈ t.map Flag.long) →
      (t :: regs).foldl mergeInto t = t := by
    intro t ht
    have h1 : mergeInto t t = t :=
      mergeInto_no_op t t (fun f hf => List.mem_map.mpr ⟨f, hf, rfl⟩)
    calc (t :: regs).foldl mergeInto t = regs.foldl mergeInto (mergeInto t t) := rfl
      _ = regs.foldl mergeInto t := by rw [h1]
      _ = t := foldl_mergeInto_no_op regs t
          (fun r hr => ht r (List.mem_cons_of_mem self hr))
  apply key
  intro reg hreg f hf
  rcases List.mem_cons.mp hreg with he | hmem
  · rw [he] at hf
    exact foldl_mergeInto_mono regs (mergeInto self self) f.long
      (mergeInto_src self self f hf)
  · exact foldl_mergeInto_src regs (mergeInto self self) reg f hmem hf

/-- The persistent boolean flag `verbose` declared on command A of the
regression chain A→B→C. -/
def verboseFlag : Flag Unit :=
  { type := Types.BOOL, long := "verbose", short := "v", description := "",
    setter := fun _ s => Except.ok s }

/-- Claim C1 counterexample: in the chain A→B→C where only A declares the
persistent flag `verbose` and B declares none, `MergePersistentFlags` on C
DOES pick up the flag of A — the walk recurses past the empty ancestor B — and
the `FullFlags` union therefore contains it as well, whereas the genuinely
gated `InheritedFlags` walk returns nothing for C. -/
theorem MergePersistentFlags_gating_cex :
    (MergePersistentFlags ([] : List (Flag Unit)) [[], [verboseFlag]]).map Flag.long
      = ["verbose"]
    ∧ (InheritedFlags [[], [verboseFlag]]).map Flag.long = ([] : List String)
    ∧ (mergeInto []
        (MergePersistentFlags ([] : List (Flag Unit)) [[], [verboseFlag]])).map Flag.long
      = ["verbose"] :=
  ⟨rfl, rfl, rfl⟩

/-- Claim C1 (amended): the upward walk of `MergePersistentFlags` gates
only the per-node merge on nonemptiness; the recursion to the parent is
unconditional, so every ancestor flag reaches the merged registry even
past empty intermediate ancestors.  In a chain A→B→C where only A declares
a persistent flag `f`, the merged persistent registry of C is exactly `[f]` and
the local-flags union contains it, while the gated `InheritedFlags` walk
of C yields nothing — the two walks do NOT follow the same gating rule. -/
theorem MergePersistentFlags_recurses_past_empty {σ : Type} :
    (∀ (self : List (Flag σ)) (regs : List (List (Flag σ)))
        (reg : List (Flag σ)) (f : Flag σ), reg ∈ regs → f ∈ reg →
        f.long ∈ (MergePersistentFlags self regs).map Flag.long)
    ∧ (∀ f : Flag σ,
        MergePersistentFlags [] [[], [f]] = [f]
        ∧ InheritedFlags [[], [f]] = ([] : List (Flag σ))
        ∧ mergeInto [] (MergePersistentFlags [] [[], [f]]) = [f]) := by
  constructor
  · intro self regs reg f hreg hf
    rw [MergePersistentFlags_eq_foldl]
    exact foldl_mergeInto_src regs (mergeInto self self) reg f hreg hf
  · intro f
    exact ⟨rfl, rfl, rfl⟩

/-- Witness for the amended C1 theorem at the concrete chain: the long
name `verbose` of the flag of A reaches the merged registry of C. -/
theorem MergePersistentFlags_recurses_past_empty_witness :
    Flag.long verboseFlag ∈
      (MergePersistentFlags ([] : List (Flag Unit)) [[], [verboseFlag]]).map Flag.long :=
  MergePersistentFlags_recurses_past_empty.1 [] [[], [verboseFlag]] [verboseFlag]
    verboseFlag (by simp) (by simp)

/-- Claim C6: registering an int flag `count`/`c` with default 5 sets the
bound storage to 5 eagerly at registration time; parsing the flag map
`{"--count": "10"}` then sets the storage to 10, while parsing an empty
flag map leaves it at the default 5. -/
theorem AddIntFlag_default_roundtrip :
    (AddIntFlag [] "count" "c" 5 "desc").2 = 5
    ∧ Parse (AddIntFlag [] "count" "c" 5 "desc").1 [("--count", "10")]
        (AddIntFlag [] "count" "c" 5 "desc").2 = (10, none)
    ∧ Parse (AddIntFlag [] "count" "c" 5 "desc").1 []
        (AddIntFlag [] "count" "c" 5 "desc").2 = (5, none) := by
  refine ⟨rfl, by decide, rfl⟩

lemma charAt_one_of_take_two {k : String} (h : k.data.take 2 = ['-', '-']) :
    charAt k 1 = '-' := by
  rcases k with ⟨l⟩
  match l, h with
  | c1 :: c2 :: rest, h =>
    simp only [List.take_succ_cons, List.take_zero, List.cons.injEq, and_true] at h
    simp [charAt, h.2]
  | [], h => simp at h
  | [c], h => simp at h

/-- Claim C7: for each flag-map entry handed to `Parse`, a key whose
stored text carries two leading dashes is resolved against descriptor
LONG names (after dropping two characters) and a key carrying a single
leading dash is resolved against SHORT names (after dropping one
character); the entry raises `UnknownFlag` exactly when no registered
descriptor matches under that resolution, and otherwise the matched
setter of the matched descriptor is invoked with the string value of the entry. -/
theorem Parse_key_resolution {σ : Type} :
    (∀ (fs : List (Flag σ)) (k v : String) (rest : List (String × String)) (st : σ),
        k.data.take 2 = ['-', '-'] →
        (fs.find? (fun f => f.long == dropChars k 2) = none →
          Parse fs ((k, v) :: rest) st
            = (st, some (ParseErr.unknownFlag (dropChars k 2))))
        ∧ (∀ f : Flag σ, fs.find? (fun f => f.long == dropChars k 2) = some f →
          Parse fs ((k, v) :: rest) st =
            match f.setter v st with
            | Except.error _ => (st, some ParseErr.setterFail)
            | Except.ok st2 => Parse fs rest st2))
    ∧ (∀ (fs : List (Flag σ)) (k v : String) (rest : List (String × String)) (st : σ),
        k.data.take 1 = ['-'] → charAt k 1 ≠ '-' →
        (fs.find? (fun f => f.short == dropChars k 1) = none →
          Parse fs ((k, v) :: rest) st
            = (st, some (ParseErr.unknownFlag (dropChars k 1))))
        ∧ (∀ f : Flag σ, fs.find? (fun f => f.short == dropChars k 1) = some f →
          Parse fs ((k, v) :: rest) st =
            match f.setter v st with
            | Except.error _ => (st, some ParseErr.setterFail)
            | Except.ok st2 => Parse fs rest st2))
    ∧ (∀ (fs : List (Flag σ)) (k v : String) (st : σ),
        k.data.take 2 = ['-', '-'] →
        ((Parse fs [(k, v)] st).2 = some (ParseErr.unknownFlag (dropChars k 2)) ↔
          fs.find? (fun f => f.long == dropChars k 2) = none))
    ∧ (∀ (fs : List (Flag σ)) (k v : String) (st : σ),
        k.data.take 1 = ['-'] → charAt k 1 ≠ '-' →
        ((Parse fs [(k, v)] st).2 = some (ParseErr.unknownFlag (dropChars k 1)) ↔
          fs.find? (fun f => f.short == dropChars k 1) = none)) := by
  refine ⟨?_, ?_, ?_, ?_⟩
  · intro fs k v rest st h
    have hc : (charAt k 1 == '-') = true := by
      rw [charAt_one_of_take_two h]
      rfl
    constructor
    · intro hfind
      simp only [Parse, hc, if_true, hfind]
    · intro f hfind
      simp only [Parse, hc, if_true, hfind]
  · intro fs k v rest st h1 h2
    have hc : (charAt k 1 == '-') = false := by
      cases hb : (charAt k 1 == '-') with
      | false => rfl
      | true => exact absurd (eq_of_beq hb) h2
    constructor
    · intro hfind
      simp only [Parse, hc, Bool.false_eq_true, if_false, hfind]
    · intro f hfind
      simp only [Parse, hc, Bool.false_eq_true, if_false, hfind]
  · intro fs k v st h
    have hc : (charAt k 1 == '-') = true := by
      rw [charAt_one_of_take_two h]
      rfl
    constructor
    · intro hres
      cases hfind : fs.find? (fun f => f.long == dropChars k 2) with
      | none => rfl
      | some f =>
        exfalso
        simp only [Parse, hc, if_true, hfind] at hres
        cases hset : f.setter v st with
        | error e =>
          rw [hset] at hres
          simp at hres
        | ok st2 =>
          rw [hset] at hres
          simp [Parse] at hres
    · intro hfind
      simp only [Parse, hc, if_true, hfind]
  · intro fs k v st h1 h2
    have hc : (charAt k 1 == '-') = false := by
      cases hb : (charAt k 1 == '-') with
      | false => rfl
      | true => exact absurd (eq_of_beq hb) h2
    constructor
    · intro hres
      cases hfind : fs.find? (fun f => f.short == dropChars k 1) with
      | none => rfl
      | some f =>
        exfalso
        simp only [Parse, hc, Bool.false_eq_true, if_false, hfind] at hres
        cases hset : f.setter v st with
        | error e =>
          rw [hset] at hres
          simp at hres
        | ok st2 =>
          rw [hset] at hres
          simp [Parse] at hres
    · intro hfind
      simp only [Parse, hc, Bool.false_eq_true, if_false, hfind]

/-- Witness for C7 at concrete inputs: the long-form key `--x` against an
empty registry raises `UnknownFlag "x"`, and the short-form key `-c`
against the registered `count`/`c` flag invokes its `std::stoi` setter
with the entry value `"3"`. -/
theorem Parse_key_resolution_witness :
    Parse ([] : List (Flag Int)) [("--x", "1")] (0 : Int)
      = (0, some (ParseErr.unknownFlag (dropChars "--x" 2)))
    ∧ Parse (AddIntFlag [] "count" "c" 5 "d").1 [("-c", "3")] (5 : Int) = (3, none) := by
  constructor
  · exact ((Parse_key_resolution).1 [] "--x" "1" [] 0 (by decide)).1 rfl
  · have h := ((Parse_key_resolution).2.1 (AddIntFlag [] "count" "c" 5 "d").1
      "-c" "3" [] 5 (by decide) (by decide)).2
      { type := Types.INT, long := "count", short := "c", description := "d",
        setter := fun v _ => stoi v } rfl
    exact h.trans (by decide)

/-! ## Levenshtein distance -/

/-- Inner loop of `LevenshteinDistance`: update the DP column for target
character `tc`.  The first list is the remaining source suffix, the second
the remaining old-column suffix `column[y..]` (values before updating);
`prevNew` is the freshly written `column[y-1]` and `diag` the
`last_diagonal` value. -/
def levInner (tc : Char) : List Char → List Nat → Nat → Nat → List Nat
  | [], _, _, _ => []
  | _ :: _, [], _, _ => []
  | sc :: s, o :: orest, prevNew, diag =>
    let v := min (min (o + 1) (prevNew + 1)) (diag + (if sc == tc then 0 else 1))
    v :: levInner tc s orest v o

/-- Outer loop of `LevenshteinDistance` over the target characters with
their 1-based index `x`: `column[0]` becomes `x` and `last_diagonal`
starts at `x - 1`. -/
def levLoop (s : List Char) : List Char → Nat → List Nat → List Nat
  | [], _, col => col
  | tc :: trest, x, col =>
    levLoop s trest (x + 1) (x :: levInner tc s col.tail x (x - 1))

/-- Model of `LevenshteinDistance`: the single-column dynamic program of the
source, case-normalised first when `ignoreCase` is set.  The column is
initialised to `0, 1, …, |s|`; the `0` at index 0 stands for the cell the
C++ code leaves uninitialised, which is only ever read when both strings
are empty (there the C++ reads indeterminate memory; the caller
`SuggestionsFor` is unaffected because its truncation rule then matches
regardless of the distance value). -/
def LevenshteinDistance (s t : String) (ignoreCase : Bool) : Nat :=
  let sl := if ignoreCase then (ToLowerCase s).data else s.data
  let tl := if ignoreCase then (ToLowerCase t).data else t.data
  (levLoop sl tl 1 (List.range (sl.length + 1))).getD sl.length 0

/-! ## Command nodes -/

/-- Model of `detail::Flags`: the descriptor list together with the
`ContinueOnError` member (which the source never initialises; it is kept
as explicit data here). -/
structure Flags (σ : Type) where
  flags : List (Flag σ)
  continueOnError : Bool

/-- Model of `detail::Command` as a tree node.  Hooks have the C++ type
`std::function<int(const Arguments&)>`; `none` models a null
`std::function`, and a hook may throw `NotRunnable`, modelled by
`Except.error`.  The `Parent` back-pointer is implicit in the tree
structure (walks carry the ancestor chain explicitly), and the `IsSorted`
member — which no dispatch path reads — is modelled as explicit state
alongside `AddCommand`/`SortSubCommands` below. -/
inductive Cmd (σ : Type) : Type where
  | mk (Use : String) (Aliases : List String) (Deprecated : String) (Hidden : Bool)
      (PersistentFlags LocalFlags : Flags σ)
      (PersistentPreRun PreRun Run PostRun PersistentPostRun :
        Option (List String → Except Unit Int))
      (Commands : List (Cmd σ))

namespace Cmd

def Use {σ : Type} : Cmd σ → String
  | mk u _ _ _ _ _ _ _ _ _ _ _ => u

def Aliases {σ : Type} : Cmd σ → List String
  | mk _ a _ _ _ _ _ _ _ _ _ _ => a

def Deprecated {σ : Type} : Cmd σ → String
  | mk _ _ d _ _ _ _ _ _ _ _ _ => d

def Hidden {σ : Type} : Cmd σ → Bool
  | mk _ _ _ h _ _ _ _ _ _ _ _ => h

def PersistentFlags {σ : Type} : Cmd σ → Flags σ
  | mk _ _ _ _ p _ _ _ _ _ _ _ => p

def LocalFlags {σ : Type} : Cmd σ → Flags σ
  | mk _ _ _ _ _ l _ _ _ _ _ _ => l

def PersistentPreRun {σ : Type} : Cmd σ → Option (List String → Except Unit Int)
  | mk _ _ _ _ _ _ h _ _ _ _ _ => h

def PreRun {σ : Type} : Cmd σ → Option (List String → Except Unit Int)
  | mk _ _ _ _ _ _ _ h _ _ _ _ => h

def Run {σ : Type} : Cmd σ → Option (List String → Except Unit Int)
  | mk _ _ _ _ _ _ _ _ h _ _ _ => h

def PostRun {σ : Type} : Cmd σ → Option (List String → Except Unit Int)
  | mk _ _ _ _ _ _ _ _ _ h _ _ => h

def PersistentPostRun {σ : Type} : Cmd σ → Option (List String → Except Unit Int)
  | mk _ _ _ _ _ _ _ _ _ _ h _ => h

def Commands {σ : Type} : Cmd σ → List (Cmd σ)
  | mk _ _ _ _ _ _ _ _ _ _ _ c => c

/-- Model of `Command::Name`: the use-line up to the first space (or all of it). -/
def Name {σ : Type} (c : Cmd σ) : String :=
  ⟨c.Use.data.takeWhile (fun ch => ch != ' ')⟩

/-- Model of `Command::HasAlias`. -/
def HasAlias {σ : Type} (c : Cmd σ) (name : String) : Bool :=
  c.Aliases.contains name

/-- Model of `Command::IsRunnable`: the run hook is non-null. -/
def IsRunnable {σ : Type} (c : Cmd σ) : Bool :=
  c.Run.isSome

end Cmd

mutual

/-- Model of `Command::IsAvailableCommand`: not deprecated, not hidden, and either
runnable or possessing an available subcommand. -/
def IsAvailableCommand {σ : Type} : Cmd σ → Bool
  | Cmd.mk _ _ dep hid _ _ _ _ run _ _ children =>
    if 0 < dep.length || hid then false
    else if run.isSome || HasAvailableSubCommandsL children then true
    else false

/-- The loop of `Command::HasAvailableSubCommands` over a child list. -/
def HasAvailableSubCommandsL {σ : Type} : List (Cmd σ) → Bool
  | [] => false
  | c :: rest => IsAvailableCommand c || HasAvailableSubCommandsL rest

end

/-- Model of `Command::HasAvailableSubCommands`. -/
def HasAvailableSubCommands {σ : Type} (c : Cmd σ) : Bool :=
  HasAvailableSubCommandsL c.Commands

/-- Model of `Command::SuggestionsFor` over the children of the node: an available
child name is suggested when its case-insensitive Levenshtein distance
to the query is at most 2, or when its lower-cased name truncated to the
query length equals the lower-cased query. -/
def SuggestionsFor {σ : Type} (cmds : List (Cmd σ)) (name : String) : List String :=
  match cmds with
  | [] => []
  | c :: rest =>
    if !(IsAvailableCommand c) then SuggestionsFor rest name
    else
      let distance := LevenshteinDistance name c.Name true
      let byLev := decide (distance ≤ 2)
      let byTrunc := takeChars (ToLowerCase c.Name) name.data.length == ToLowerCase name
      if byLev || byTrunc then c.Name :: SuggestionsFor rest name
      else SuggestionsFor rest name

/-- Insertion into a name-sorted child list: together with `sortByName`
this models `std::sort` with `std::lexicographical_compare` on the names
(on children with pairwise distinct names, where every correct sort
agrees with the stable insertion sort). -/
def insertByName {σ : Type} (c : Cmd σ) : List (Cmd σ) → List (Cmd σ)
  | [] => [c]
  | d :: rest =>
    if strLt c.Name d.Name then c :: d :: rest else d :: insertByName c rest

/-- The name sort performed by `Command::SortSubCommands`. -/
def sortByName {σ : Type} (cs : List (Cmd σ)) : List (Cmd σ) :=
  cs.foldr insertByName []

/-- Model of `Command::SortSubCommands` acting on the parent
`(Commands, IsSorted)` pair: when the flag is set the sort returns
immediately, otherwise the children are sorted by name and the flag is
set. -/
def SortSubCommands {σ : Type} (children : List (Cmd σ)) (isSorted : Bool) :
    List (Cmd σ) × Bool :=
  if isSorted then (children, true) else (sortByName children, true)

/-- Model of `Command::AddCommand` acting on the parent `(Commands, IsSorted)`
pair: the child is appended (its parent pointer is set, which the tree
embedding keeps implicit) and `SortSubCommands` is called; the `IsSorted`
flag is NOT cleared beforehand. -/
def AddCommand {σ : Type} (children : List (Cmd σ)) (isSorted : Bool)
    (cmd : Cmd σ) : List (Cmd σ) × Bool :=
  SortSubCommands (children ++ [cmd]) isSorted

/-- A minimal runnable command with the given use-line and no flags,
aliases or children. -/
def namedCmd (use : String) : Cmd Unit :=
  Cmd.mk use [] "" false ⟨[], false⟩ ⟨[], false⟩ none none
    (some (fun _ => Except.ok 0)) none none []

/-- Claim C5: `SuggestionsFor` returns exactly the names, in child
iteration order, of the available children whose case-insensitive
Levenshtein distance to the query is at most 2 or whose lower-cased name
truncated to the query length equals the lower-cased query; a query
strictly longer than a candidate name never matches by the truncation
rule; and a root with an available child named `help` yields `["help"]`
for the query `hlp`. -/
theorem SuggestionsFor_characterization :
    (∀ (σ : Type) (cmds : List (Cmd σ)) (q : String),
        SuggestionsFor cmds q =
          (cmds.filter (fun c => IsAvailableCommand c
            && (decide (LevenshteinDistance q c.Name true ≤ 2)
                || (takeChars (ToLowerCase c.Name) q.data.length
                      == ToLowerCase q)))).map Cmd.Name)
    ∧ (∀ q n : String, n.data.length < q.data.length →
        (takeChars (ToLowerCase n) q.data.length == ToLowerCase q) = false)
    ∧ SuggestionsFor [namedCmd "help [command]"] "hlp" = ["help"] := by
  refine ⟨?_, ?_, ?_⟩
  · intro σ cmds q
    induction cmds with
    | nil => rfl
    | cons c rest ih =>
      cases ha : IsAvailableCommand c with
      | false => simp [SuggestionsFor, ha, List.filter_cons, ih]
      | true =>
        simp [SuggestionsFor, ha, List.filter_cons, ih]
        split_ifs <;> simp
  · intro q n h
    cases hb : (takeChars (ToLowerCase n) q.data.length == ToLowerCase q) with
    | false => rfl
    | true =>
      exfalso
      have he := eq_of_beq hb
      have hlen := congrArg (fun s : String => s.data.length) he
      simp only [takeChars, ToLowerCase, List.length_take, List.length_map] at hlen
      omega
  · decide

/-- Witness for C5 at concrete strings: the query `abc` is strictly longer
than the candidate name `ab`, so the truncation rule does not match. -/
theorem SuggestionsFor_characterization_witness :
    (takeChars (ToLowerCase "ab") ("abc").data.length == ToLowerCase "abc") = false :=
  SuggestionsFor_characterization.2.1 "abc" "ab" (by decide)

/-- The C9 scenario: the children of a node after `AddCommand(b)` followed
by `AddCommand(a)` and an explicit `SortSubCommands`, starting from sort
flag `b0` (the `IsSorted` member is never initialised in the source, so
both initial values are considered). -/
def addTwiceThenSort (b0 : Bool) : List (Cmd Unit) × Bool :=
  let s1 := AddCommand [] b0 (namedCmd "b")
  let s2 := AddCommand s1.1 s1.2 (namedCmd "a")
  SortSubCommands s2.1 s2.2

/-- Claim C9 (code bug): `AddCommand` never invalidates the parent
`IsSorted` flag.  Adding `b` leaves the flag set, so adding `a` appends
without sorting and every later `SortSubCommands` is a no-op: the
later-sorted children sequence stays `[b, a]`, out of name order, for
either initial value of the uninitialised flag. -/
theorem AddCommand_stale_sorted_flag :
    ((addTwiceThenSort false).1.map Cmd.Name = ["b", "a"]
      ∧ (addTwiceThenSort false).1.map Cmd.Name ≠ ["a", "b"])
    ∧ ((addTwiceThenSort true).1.map Cmd.Name = ["b", "a"]
      ∧ (addTwiceThenSort true).1.map Cmd.Name ≠ ["a", "b"]) := by
  exact ⟨⟨by decide, by decide⟩, ⟨by decide, by decide⟩⟩

/-! ## Dispatch (`Command::Execute`) -/

/-- The child scan of the resolution loop: the first available child of
the current node whose name or alias equals the token. -/
def findChild {σ : Type} : List (Cmd σ) → String → Option (Cmd σ)
  | [], _ => none
  | c :: rest, arg =>
    if !(IsAvailableCommand c) then findChild rest arg
    else if c.Name == arg || c.HasAlias arg then some c
    else findChild rest arg

/-- The resolution loop of `Execute`.  `root` is the object `Execute` runs
on (after re-rooting), `tmp` the current node and `anc` the persistent
registries of the strict ancestors of `tmp`, nearest first.  The loop
breaks when the positional list is empty, when the ROOT has no available
subcommands — the loop body calls `HasAvailableSubCommands()` on `this`,
not on `tmp` — or when no available child of `tmp` matches the first
token. -/
def resolveGo {σ : Type} (root : Cmd σ) :
    Cmd σ → List (Flags σ) → List String → Cmd σ × List (Flags σ) × List String
  | tmp, anc, [] => (tmp, anc, [])
  | tmp, anc, arg :: rest =>
    if HasAvailableSubCommands root then
      match findChild tmp.Commands arg with
      | some c => resolveGo root c (tmp.PersistentFlags :: anc) rest
      | none => (tmp, anc, arg :: rest)
    else (tmp, anc, arg :: rest)

/-- Model of `Command::FullFlags` of a node with ancestor persistent registries
`anc`: `MergePersistentFlags` runs first (the destructive flattening),
then the local registry is extended by the merged persistent flags without
duplicating long names.  The `ContinueOnError` member is the one copied
from `LocalFlags`. -/
def FullFlags {σ : Type} (tmp : Cmd σ) (anc : List (Flags σ)) : Flags σ :=
  { flags := mergeInto tmp.LocalFlags.flags
      (MergePersistentFlags tmp.PersistentFlags.flags (anc.map Flags.flags)),
    continueOnError := tmp.LocalFlags.continueOnError }

/-- The lifecycle hooks `Execute` could invoke, as trace labels. -/
inductive HookEv where
  | persistentPreRunH
  | preRunH
  | runH
  | postRunH
  | persistentPostRunH
deriving DecidableEq

/-- Observable output events of `Execute`: the unknown-command diagnostic
with its suggestions, and a usage display. -/
inductive OutEv where
  | notFound (token : String) (suggestions : List String)
  | usage
deriving DecidableEq

/-- The observable outcome of one dispatch: exit status, hook-invocation
trace, output events, and the setter-visible storage state. -/
structure ExecResult (σ : Type) where
  status : Int
  trace : List HookEv
  outEvents : List OutEv
  state : σ

/-- Invoking the run hook: a normal return becomes the exit status, and a
thrown `NotRunnable` is caught and converted into a usage display with
exit status 0. -/
def invokeRun {σ : Type} (runf : List String → Except Unit Int)
    (args : List String) (st : σ) : ExecResult σ :=
  match runf args with
  | Except.ok n => { status := n, trace := [HookEv.runH], outEvents := [], state := st }
  | Except.error _ =>
    { status := 0, trace := [HookEv.runH], outEvents := [OutEv.usage], state := st }

/-- The tail of `Execute` after splitting and resolution: the NotFound
check (resolution stopped at the root, the root has an available
subcommand, positional tokens remain), then flag parsing and the run hook
for a runnable node — a parse failure shows usage and returns -1 unless
`ContinueOnError` is set — and a plain usage display with status 0 for a
non-runnable node. -/
def executeResolved {σ : Type} (tmp : Cmd σ) (anc : List (Flags σ))
    (rem : List String) (flags : List (String × String)) (st : σ) : ExecResult σ :=
  if anc.isEmpty && HasAvailableSubCommands tmp && !rem.isEmpty then
    { status := -1, trace := [],
      outEvents := [OutEv.notFound (rem.headD "")
        (SuggestionsFor tmp.Commands (rem.headD ""))],
      state := st }
  else
    match tmp.Run with
    | some runf =>
      let pr := Parse (FullFlags tmp anc).flags flags st
      match pr.2 with
      | some _ =>
        if !(FullFlags tmp anc).continueOnError then
          { status := -1, trace := [], outEvents := [OutEv.usage], state := pr.1 }
        else invokeRun runf rem pr.1
      | none => invokeRun runf rem pr.1
    | none => { status := 0, trace := [], outEvents := [OutEv.usage], state := st }

/-- Model of `Command::Execute` at the root (a call on a non-root node first
re-roots and re-enters there).  `InjectHelpCommand` constructs a help
command but never attaches it to the tree, so it has no observable effect
and contributes nothing here.  The pointer test `tmp == Root()` holds in
the tree embedding exactly when the resolution loop never descended,
i.e. when the accumulated ancestor list is empty. -/
def Execute {σ : Type} (root : Cmd σ) (args0 : List String) (st : σ) : ExecResult σ :=
  let sp := StripFlags args0
  let r := resolveGo root root [] sp.1
  executeResolved r.1 r.2.1 r.2.2 sp.2 st

/-- A runnable root command that defines all five lifecycle hooks. -/
def allHooksRoot : Cmd Unit :=
  Cmd.mk "app" [] "" false ⟨[], false⟩ ⟨[], false⟩
    (some (fun _ => Except.ok 0)) (some (fun _ => Except.ok 0))
    (some (fun _ => Except.ok 7)) (some (fun _ => Except.ok 0))
    (some (fun _ => Except.ok 0)) []

/-- Claim C2 (code bug): dispatching a runnable root that defines
`persistentPreRun`, `preRun`, `run`, `postRun` and `persistentPostRun`
invokes ONLY the run hook; `Execute` never calls the other four, although
the source documents them as executing around `Run`. -/
theorem Execute_invokes_only_run :
    (Execute allHooksRoot [] ()).trace = [HookEv.runH]
    ∧ (Execute allHooksRoot [] ()).trace ≠
        [HookEv.persistentPreRunH, HookEv.preRunH, HookEv.runH, HookEv.postRunH,
          HookEv.persistentPostRunH]
    ∧ (Execute allHooksRoot [] ()).status = 7 := by
  exact ⟨rfl, by decide, rfl⟩

lemma resolveGo_anc_length {σ : Type} (root : Cmd σ) :
    ∀ (args : List String) (tmp : Cmd σ) (anc : List (Flags σ)),
    anc.length ≤ (resolveGo root tmp anc args).2.1.length
  | [], _, _ => le_refl _
  | arg :: rest, tmp, anc => by
    simp only [resolveGo]
    cases hs : HasAvailableSubCommands root with
    | false => simp [hs]
    | true =>
      cases hf : findChild tmp.Commands arg with
      | none => simp [hs, hf]
      | some c =>
        simp only [hs, if_true, hf]
        have h := resolveGo_anc_length root rest c (tmp.PersistentFlags :: anc)
        simp only [List.length_cons] at h
        exact le_trans (Nat.le_succ anc.length) h

lemma resolveGo_no_descent {σ : Type} (root : Cmd σ) :
    ∀ (args : List String) (tmp : Cmd σ) (anc : List (Flags σ)),
    (resolveGo root tmp anc args).2.1.length = anc.length →
    resolveGo root tmp anc args = (tmp, anc, args)
  | [], _, _, _ => rfl
  | arg :: rest, tmp, anc, h => by
    simp only [resolveGo] at h ⊢
    cases hs : HasAvailableSubCommands root with
    | false => simp [hs]
    | true =>
      cases hf : findChild tmp.Commands arg with
      | none => simp [hs, hf]
      | some c =>
        exfalso
        simp only [hs, if_true, hf] at h
        have hlen := resolveGo_anc_length root rest c (tmp.PersistentFlags :: anc)
        rw [h] at hlen
        simp only [List.length_cons] at hlen
        omega

/-- Claim C3: whenever resolution terminates exactly at the root (the
ancestor accumulator stays empty), the root still has an available
subcommand, and at least one positional token is left unconsumed,
`Execute` reports the unmatched token together with the suggestions
computed against the root, returns exit status -1, and invokes no
lifecycle hook. -/
theorem Execute_unmatched_token_notfound {σ : Type} (root : Cmd σ)
    (args0 : List String) (st : σ)
    (hres : (resolveGo root root [] (StripFlags args0).1).2.1 = [])
    (hne : (StripFlags args0).1 ≠ [])
    (hsub : HasAvailableSubCommands root = true) :
    Execute root args0 st =
      { status := -1, trace := [],
        outEvents := [OutEv.notFound ((StripFlags args0).1.headD "")
          (SuggestionsFor root.Commands ((StripFlags args0).1.headD ""))],
        state := st } := by
  have hlen : (resolveGo root root [] (StripFlags args0).1).2.1.length
      = ([] : List (Flags σ)).length := by rw [hres]
  have heq := resolveGo_no_descent root (StripFlags args0).1 root [] hlen
  have hnE : (StripFlags args0).1.isEmpty = false := by
    cases hcase : (StripFlags args0).1 with
    | nil => exact absurd hcase hne
    | cons a l => rfl
  simp only [Execute]
  rw [heq]
  simp [executeResolved, hsub, hnE]

/-- A root with the single runnable child `help`: the concrete dispatch
tree of the C3 witness. -/
def helpRoot : Cmd Unit :=
  Cmd.mk "app" [] "" false ⟨[], false⟩ ⟨[], false⟩ none none none none none
    [namedCmd "help [command]"]

/-- Witness for C3: dispatching the unknown token `xyz` on `helpRoot`
returns -1 and invokes no hook. -/
theorem Execute_unmatched_token_notfound_witness :
    (Execute helpRoot ["xyz"] ()).status = -1
    ∧ (Execute helpRoot ["xyz"] ()).trace = [] := by
  have h := Execute_unmatched_token_notfound helpRoot ["xyz"] () rfl (by decide) rfl
  rw [h]
  exact ⟨rfl, rfl⟩

end Cobalt
